import Mathlib

/-!
Shallow embedding of the Merkle tree library (`src/lib.rs`).

The Rust code hashes strings with Blake2b512 and hex-encodes each digest.
Leaf hashing and internal-node hashing both apply this same
string-to-string function, so the embedding abstracts it as a parameter
`hash : String → String`; every property below is structural in the hash.
Rust panics (`pop().unwrap()` on an empty vector, out-of-bounds
`leaves[leaf_index]`) are modelled by `Option`.
-/

/-- The proof bundle `MerkleProof<T>` of the source: sibling digests
collected bottom-to-top, the leaf count, the proven index and the raw
leaf content. -/
structure MerkleProof (T : Type) where
  hashes : List String
  num_of_leaves : Nat
  leaf_index : Nat
  leaf_content : T
deriving DecidableEq

namespace MerkleTree

/-- One pass of `hashed_leaves.chunks(2)`: consecutive non-overlapping
pairs, a trailing unpaired element carrying a `none` partner. -/
def chunks2 : List String → List (String × Option String)
  | [] => []
  | [a] => [(a, none)]
  | a :: b :: rest => (a, some b) :: chunks2 rest

/-- The `match chunk` of the reduction loops: a full pair `[a, b]`
hashes `a ++ b`, a trailing single `[a]` hashes `a ++ a`. -/
def combineChunk (hash : String → String) : String × Option String → String
  | (a, some b) => hash (a ++ b)
  | (a, none) => hash (a ++ a)

/-- One iteration of the `while` loop in `merkle_root`: chunk the level
in pairs and hash each chunk into the next level. -/
def nextLevel (hash : String → String) : List String → List String
  | [] => []
  | [a] => [hash (a ++ a)]
  | a :: b :: rest => hash (a ++ b) :: nextLevel hash rest

/-- One iteration of the level reduction exactly as it appears inside
`merkle_proof` (the source duplicates the loop body of `merkle_root`,
iterating the enumerated chunks). -/
def nextLevelP (hash : String → String) (level : List String) : List String :=
  (chunks2 level).map (combineChunk hash)

/-- Length of one reduction step: pairing halves the level, rounded up. -/
def nextLevel_len (hash : String → String) :
    ∀ level : List String, (nextLevel hash level).length = (level.length + 1) / 2
  | [] => rfl
  | [_] => by simp [nextLevel]
  | _ :: _ :: rest => by
      simp [nextLevel, nextLevel_len hash rest]
      omega

/-- The duplicated loop body of `merkle_proof` builds the same next
level as the one in `merkle_root`. -/
def nextLevelP_eq (hash : String → String) :
    ∀ level : List String, nextLevelP hash level = nextLevel hash level
  | [] => rfl
  | [_] => rfl
  | a :: b :: rest => by
      have ih := nextLevelP_eq hash rest
      simp [nextLevelP, chunks2, combineChunk, nextLevel] at ih ⊢
      exact ih

/-- The root reduction: the `while hashed_leaves.len() > 1` loop. -/
def reduceToRoot (hash : String → String) (level : List String) : List String :=
  if _h : level.length > 1 then reduceToRoot hash (nextLevel hash level) else level
termination_by level.length
decreasing_by
  rw [nextLevel_len]
  omega

/-- Function `merkle_root`: hash every leaf, reduce, then
`pop().unwrap()`; `none` models the panic on empty input. -/
def merkle_root (hash : String → String) (leaves : List String) : Option String :=
  (reduceToRoot hash (leaves.map hash)).getLast?

/-- Sibling choice of `proof.hashes.push(match chunk ...)`: a full pair
yields the partner selected by the parity of the tracked index, a
trailing single yields itself. -/
def chunkSibling : String × Option String → Nat → String
  | (a, some b), index => if index % 2 == 0 then b else a
  | (a, none), _ => a

/-- Siblings pushed while processing one level: the source pushes
exactly for the chunk enumerated at position `index / 2`. -/
def levelSiblings (level : List String) (index : Nat) : List String :=
  match (chunks2 level)[index / 2]? with
  | some c => [chunkSibling c index]
  | none => []

/-- The `while` loop of `merkle_proof`: record this level's sibling into
the accumulator, reduce the level, halve the index. -/
def proofLoop (hash : String → String) (level : List String) (index : Nat)
    (acc : List String) : List String :=
  if _h : level.length > 1 then
    proofLoop hash (nextLevelP hash level) (index / 2) (acc ++ levelSiblings level index)
  else acc
termination_by level.length
decreasing_by
  rw [nextLevelP_eq, nextLevel_len]
  omega

/-- Function `merkle_proof`; `none` models the panic of
`leaves[leaf_index]` when the index is out of range (in particular on
zero leaves). -/
def merkle_proof (hash : String → String) (leaves : List String) (leaf_index : Nat) :
    Option (MerkleProof String) :=
  match leaves[leaf_index]? with
  | none => none
  | some content =>
    some { hashes := proofLoop hash (leaves.map hash) leaf_index []
           num_of_leaves := leaves.length
           leaf_index := leaf_index
           leaf_content := content }

/-- The `for sibling_hash in &proof.hashes` loop of `verify_proof`:
parity of the running index picks the concatenation order, then the
index is halved. -/
def verifyLoop (hash : String → String) : List String → String → Nat → String
  | [], h, _ => h
  | sib :: rest, h, index =>
      verifyLoop hash rest (hash (if index % 2 == 0 then h ++ sib else sib ++ h)) (index / 2)

/-- Function `verify_proof`: recompute the chain from the claimed leaf
content and compare it with the trusted root. -/
def verify_proof (hash : String → String) (root : String) (proof : MerkleProof String) :
    Bool :=
  root == verifyLoop hash proof.hashes (hash proof.leaf_content) proof.leaf_index

/-- Spec-side definition for the refinement claim about sibling
selection (§4.3 of the spec): the sibling of the tracked node within
one level is the second element of its chunk when the tracked index is
even and a partner exists, the first element when the index is odd, and
the node's own digest when its chunk is a trailing singleton. -/
def specSibling (level : List String) (index : Nat) : String :=
  if index % 2 = 1 then level.getD (index - 1) ""
  else if index + 1 < level.length then level.getD (index + 1) ""
  else level.getD index ""

/-- Spec-side definition (§4.3): one sibling per reduction level, in
bottom-to-top level order, the tracked index halved after each level. -/
def specSiblingList (hash : String → String) (level : List String) (index : Nat) :
    List String :=
  if _h : level.length > 1 then
    specSibling level index :: specSiblingList hash (nextLevel hash level) (index / 2)
  else []
termination_by level.length
decreasing_by
  rw [nextLevel_len]
  omega

/-- Concrete stand-in hash function used to instantiate witnesses. -/
def demoHash (s : String) : String := "H(" ++ s ++ ")"

/-- Unfolding lemma for the root reduction loop. -/
theorem reduceToRoot_step (hash : String → String) (level : List String) :
    reduceToRoot hash level =
      if level.length > 1 then reduceToRoot hash (nextLevel hash level) else level := by
  rw [reduceToRoot.eq_def]
  split <;> rfl

/-- Unfolding lemma for the proof-generation loop. -/
theorem proofLoop_step (hash : String → String) (level : List String) (index : Nat)
    (acc : List String) :
    proofLoop hash level index acc =
      if level.length > 1 then
        proofLoop hash (nextLevelP hash level) (index / 2) (acc ++ levelSiblings level index)
      else acc := by
  rw [proofLoop.eq_def]
  split <;> rfl

/-- Unfolding lemma for the spec-side sibling list. -/
theorem specSiblingList_step (hash : String → String) (level : List String) (index : Nat) :
    specSiblingList hash level index =
      if level.length > 1 then
        specSibling level index :: specSiblingList hash (nextLevel hash level) (index / 2)
      else [] := by
  rw [specSiblingList.eq_def]
  split <;> rfl

/-- Dropping one full pair shifts the spec-side sibling by two. -/
theorem specSibling_cons2 (a b : String) (rest : List String) (i : Nat) :
    specSibling (a :: b :: rest) (i + 2) = specSibling rest i := by
  simp only [specSibling, List.length_cons]
  split_ifs <;>
    first
      | omega
      | (simp; done)
      | (cases i with
          | zero => omega
          | succ k => simp)

/-- The chunk-level sibling choice only depends on the index's parity. -/
theorem chunkSibling_add_two (c : String × Option String) (i : Nat) :
    chunkSibling c (i + 2) = chunkSibling c i := by
  rcases c with ⟨a, b⟩
  cases b <;> simp [chunkSibling, Nat.add_mod_right]

/-- For an in-range tracked index, the source records exactly one
sibling per level, and it is the one described by the spec. -/
theorem levelSiblings_eq :
    ∀ (level : List String) (index : Nat), index < level.length →
      levelSiblings level index = [specSibling level index]
  | [], _, h => by simp at h
  | [a], 0, _ => by simp [levelSiblings, chunks2, chunkSibling, specSibling]
  | [a], i + 1, h => by simp at h
  | a :: b :: rest, 0, _ => by
      simp [levelSiblings, chunks2, chunkSibling, specSibling]
  | a :: b :: rest, 1, _ => by
      simp [levelSiblings, chunks2, chunkSibling, specSibling]
  | a :: b :: rest, i + 2, h => by
      have ih := levelSiblings_eq rest i (by simp at h; omega)
      rw [specSibling_cons2]
      unfold levelSiblings at ih ⊢
      rw [show (i + 2) / 2 = i / 2 + 1 by omega]
      simp only [chunks2, List.getElem?_cons_succ]
      cases hc : (chunks2 rest)[i / 2]? with
      | none => rw [hc] at ih; simp at ih
      | some c =>
          rw [hc] at ih
          simp only at ih ⊢
          rw [chunkSibling_add_two]
          exact ih

/-- Combining the tracked node with its spec-side sibling, in the order
dictated by the index's parity, yields exactly the parent digest placed
at the halved index of the next level. -/
theorem nextLevel_getD (hash : String → String) :
    ∀ (level : List String) (index : Nat), index < level.length →
      (nextLevel hash level).getD (index / 2) "" =
        hash (if index % 2 == 0 then level.getD index "" ++ specSibling level index
              else specSibling level index ++ level.getD index "")
  | [], _, h => by simp at h
  | [a], 0, _ => by simp [nextLevel, specSibling]
  | [a], i + 1, h => by simp at h
  | a :: b :: rest, 0, _ => by
      have hs : specSibling (a :: b :: rest) 0 = b := by
        rw [specSibling, if_neg (by omega), if_pos (by simp)]
        simp
      simp [nextLevel, hs]
  | a :: b :: rest, 1, _ => by
      have hs : specSibling (a :: b :: rest) 1 = a := by
        rw [specSibling, if_pos (by omega)]
        simp
      simp [nextLevel, hs]
  | a :: b :: rest, i + 2, h => by
      have ih := nextLevel_getD hash rest i (by simp at h; omega)
      rw [specSibling_cons2, show (i + 2) / 2 = i / 2 + 1 by omega]
      have hmod : (i + 2) % 2 = i % 2 := by omega
      simp only [nextLevel, List.getD_cons_succ, hmod]
      simpa using ih

/-- The proof-loop accumulator only collects appends (fuel version). -/
theorem proofLoop_append_fuel (hash : String → String) :
    ∀ (n : Nat) (level : List String), level.length ≤ n →
      ∀ (index : Nat) (acc : List String),
        proofLoop hash level index acc = acc ++ proofLoop hash level index [] := by
  intro n
  induction n with
  | zero =>
    intro level hl index acc
    rw [proofLoop_step hash level index acc, proofLoop_step hash level index [],
      if_neg (by omega), if_neg (by omega)]
    simp
  | succ n ih =>
    intro level hl index acc
    rw [proofLoop_step hash level, proofLoop_step hash level]
    by_cases h : level.length > 1
    · rw [if_pos h, if_pos h]
      have hlen : (nextLevelP hash level).length ≤ n := by
        rw [nextLevelP_eq, nextLevel_len]; omega
      rw [ih _ hlen (index / 2) (acc ++ levelSiblings level index),
        ih _ hlen (index / 2) ([] ++ levelSiblings level index)]
      simp
    · rw [if_neg h, if_neg h]
      simp

/-- The proof-loop accumulator only collects appends. -/
theorem proofLoop_append (hash : String → String) (level : List String) (index : Nat)
    (acc : List String) :
    proofLoop hash level index acc = acc ++ proofLoop hash level index [] :=
  proofLoop_append_fuel hash level.length level (le_refl _) index acc

/-- Main invariant (fuel version): reducing any level with an in-range
tracked index gives a singleton root, and replaying the verification
loop over the siblings recorded by the proof loop, starting from the
tracked digest, reaches exactly that root. -/
theorem reduceToRoot_verify_fuel (hash : String → String) :
    ∀ (n : Nat) (level : List String), level.length ≤ n →
      ∀ index : Nat, index < level.length →
        ∃ r, reduceToRoot hash level = [r] ∧
          verifyLoop hash (proofLoop hash level index []) (level.getD index "") index = r := by
  intro n
  induction n with
  | zero => intro level hl index hi; omega
  | succ n ih =>
    intro level hl index hi
    by_cases h : level.length > 1
    · rw [reduceToRoot_step, if_pos h, proofLoop_step, if_pos h]
      have hnl : (nextLevel hash level).length ≤ n := by rw [nextLevel_len]; omega
      have hi2 : index / 2 < (nextLevel hash level).length := by rw [nextLevel_len]; omega
      obtain ⟨r, hr, hv⟩ := ih (nextLevel hash level) hnl (index / 2) hi2
      refine ⟨r, hr, ?_⟩
      rw [nextLevelP_eq, proofLoop_append, levelSiblings_eq level index hi]
      simp only [List.nil_append, List.cons_append]
      rw [verifyLoop]
      rw [nextLevel_getD hash level index hi] at hv
      simpa using hv
    · have h1 : level.length = 1 := by omega
      obtain ⟨x, rfl⟩ := List.length_eq_one.mp h1
      have hi0 : index = 0 := by simpa using hi
      subst hi0
      refine ⟨x, ?_, ?_⟩
      · rw [reduceToRoot_step, if_neg (by simp)]
      · rw [proofLoop_step, if_neg (by simp)]
        simp [verifyLoop]

/-- Main invariant at exact fuel. -/
theorem reduceToRoot_verify (hash : String → String) (level : List String) (index : Nat)
    (hi : index < level.length) :
    ∃ r, reduceToRoot hash level = [r] ∧
      verifyLoop hash (proofLoop hash level index []) (level.getD index "") index = r :=
  reduceToRoot_verify_fuel hash level.length level (le_refl _) index hi

/-- The siblings collected by the source's proof loop are exactly the
spec-side sibling list (fuel version). -/
theorem proofLoop_spec_fuel (hash : String → String) :
    ∀ (n : Nat) (level : List String), level.length ≤ n →
      ∀ index : Nat, index < level.length →
        proofLoop hash level index [] = specSiblingList hash level index := by
  intro n
  induction n with
  | zero => intro level hl index hi; omega
  | succ n ih =>
    intro level hl index hi
    rw [proofLoop_step, specSiblingList_step]
    by_cases h : level.length > 1
    · rw [if_pos h, if_pos h]
      have hnl : (nextLevel hash level).length ≤ n := by rw [nextLevel_len]; omega
      have hi2 : index / 2 < (nextLevel hash level).length := by rw [nextLevel_len]; omega
      rw [nextLevelP_eq, proofLoop_append, levelSiblings_eq level index hi,
        ih (nextLevel hash level) hnl (index / 2) hi2]
      simp
    · rw [if_neg h, if_neg h]

/-- The siblings collected by the source's proof loop are exactly the
spec-side sibling list. -/
theorem proofLoop_spec (hash : String → String) (level : List String) (index : Nat)
    (hi : index < level.length) :
    proofLoop hash level index [] = specSiblingList hash level index :=
  proofLoop_spec_fuel hash level.length level (le_refl _) index hi

/-- Number of siblings collected from a level of size `n`: one per
reduction step, hence `Nat.clog 2 n` in total (fuel version). -/
theorem proofLoop_len_fuel (hash : String → String) :
    ∀ (n : Nat) (level : List String), level.length ≤ n →
      ∀ index : Nat, index < level.length →
        (proofLoop hash level index []).length = Nat.clog 2 level.length := by
  intro n
  induction n with
  | zero => intro level hl index hi; omega
  | succ n ih =>
    intro level hl index hi
    rw [proofLoop_step]
    by_cases h : level.length > 1
    · rw [if_pos h]
      have hnl : (nextLevel hash level).length ≤ n := by rw [nextLevel_len]; omega
      have hi2 : index / 2 < (nextLevel hash level).length := by rw [nextLevel_len]; omega
      rw [nextLevelP_eq, proofLoop_append, levelSiblings_eq level index hi]
      simp only [List.nil_append, List.cons_append, List.length_cons]
      rw [ih (nextLevel hash level) hnl (index / 2) hi2, nextLevel_len]
      rw [@Nat.clog_of_two_le 2 level.length (by norm_num) (by omega)]
      simp
    · rw [if_neg h]
      have h1 : level.length = 1 := by omega
      rw [h1]
      simp [Nat.clog_one_right]

/-- Number of siblings collected from a level of size `n` equals
`Nat.clog 2 n`, the ceiling of the base-2 logarithm. -/
theorem proofLoop_len (hash : String → String) (level : List String) (index : Nat)
    (hi : index < level.length) :
    (proofLoop hash level index []).length = Nat.clog 2 level.length :=
  proofLoop_len_fuel hash level.length level (le_refl _) index hi

/-- On a level of odd length the reduction pairs the trailing element
with itself: the last parent is the hash of the last element
concatenated with itself. -/
theorem nextLevel_getLast_odd (hash : String → String) :
    ∀ level : List String, level.length % 2 = 1 →
      ∃ a, level.getLast? = some a ∧
        (nextLevel hash level).getLast? = some (hash (a ++ a))
  | [], h => by simp at h
  | [a], _ => ⟨a, by simp, by simp [nextLevel]⟩
  | a :: b :: rest, h => by
      have hr : rest.length % 2 = 1 := by simp [List.length_cons] at h; omega
      obtain ⟨x, h1, h2⟩ := nextLevel_getLast_odd hash rest hr
      have hne : rest ≠ [] := by
        intro e
        rw [e] at hr
        simp at hr
      refine ⟨x, ?_, ?_⟩
      · rw [List.getLast?_cons_cons]
        cases rest with
        | nil => exact absurd rfl hne
        | cons c cs => rw [List.getLast?_cons_cons]; exact h1
      · simp only [nextLevel]
        cases hnl : nextLevel hash rest with
        | nil =>
            have hlen := nextLevel_len hash rest
            rw [hnl] at hlen
            simp at hlen
            omega
        | cons c cs =>
            rw [hnl] at h2
            rw [List.getLast?_cons_cons]
            exact h2

/-- C1: for every non-empty leaf sequence `L` and every index
`i < L.length`, verifying the generated proof against the computed root
succeeds: `merkle_root` and `merkle_proof` both return values and
`verify_proof` accepts them. -/
theorem merkle_root_proof_roundtrip (hash : String → String) (L : List String) (i : Nat)
    (_hL : L ≠ []) (hi : i < L.length) :
    ∃ r p, merkle_root hash L = some r ∧ merkle_proof hash L i = some p ∧
      verify_proof hash r p = true := by
  have hi' : i < (L.map hash).length := by simpa using hi
  obtain ⟨r, hr, hv⟩ := reduceToRoot_verify hash (L.map hash) i hi'
  obtain ⟨c, hc⟩ : ∃ c, L[i]? = some c := ⟨_, List.getElem?_eq_getElem hi⟩
  refine ⟨r, ⟨proofLoop hash (L.map hash) i [], L.length, i, c⟩, ?_, ?_, ?_⟩
  · rw [merkle_root, hr]
    rfl
  · simp only [merkle_proof, hc]
  · have hmap : (L.map hash).getD i "" = hash c := by
      rw [List.getD_eq_getElem?_getD, List.getElem?_map, hc]
      rfl
    simp only [verify_proof]
    rw [← hmap, hv]
    simp

/-- Witness for C1 at five leaves and index 1. -/
theorem merkle_root_proof_roundtrip_witness :
    ∃ r p, merkle_root demoHash ["a", "b", "c", "d", "e"] = some r ∧
      merkle_proof demoHash ["a", "b", "c", "d", "e"] 1 = some p ∧
      verify_proof demoHash r p = true :=
  merkle_root_proof_roundtrip demoHash ["a", "b", "c", "d", "e"] 1 (by decide) (by decide)

/-- C2: on any level of odd length the trailing single element `a`
self-pairs — the last parent digest of the next level is
`hash (a ++ a)` — and the level reduction performed inside
`merkle_proof` is identical, level by level, to the one performed by
`merkle_root`. -/
theorem self_pairing_rule (hash : String → String) (level : List String)
    (hodd : level.length % 2 = 1) :
    ∃ a, level.getLast? = some a ∧
      (nextLevel hash level).getLast? = some (hash (a ++ a)) ∧
      nextLevelP hash level = nextLevel hash level := by
  obtain ⟨a, h1, h2⟩ := nextLevel_getLast_odd hash level hodd
  exact ⟨a, h1, h2, nextLevelP_eq hash level⟩

/-- Witness for C2 on a level of three digests. -/
theorem self_pairing_rule_witness :
    ∃ a, (["x", "y", "z"] : List String).getLast? = some a ∧
      (nextLevel demoHash ["x", "y", "z"]).getLast? = some (demoHash (a ++ a)) ∧
      nextLevelP demoHash ["x", "y", "z"] = nextLevel demoHash ["x", "y", "z"] :=
  self_pairing_rule demoHash ["x", "y", "z"] (by decide)

/-- C3: for every non-empty leaf sequence and valid index, the sibling
list recorded by `merkle_proof` is exactly the spec-side description:
one sibling per reduction level in bottom-to-top order, chosen by the
parity of the tracked index (second chunk element when even with a
partner, first when odd, the node's own digest for a trailing
singleton), the index being halved after each level. -/
theorem merkle_proof_sibling_rule (hash : String → String) (L : List String) (i : Nat)
    (hi : i < L.length) :
    ∃ p, merkle_proof hash L i = some p ∧
      p.hashes = specSiblingList hash (L.map hash) i := by
  obtain ⟨c, hc⟩ : ∃ c, L[i]? = some c := ⟨_, List.getElem?_eq_getElem hi⟩
  refine ⟨⟨proofLoop hash (L.map hash) i [], L.length, i, c⟩, ?_, ?_⟩
  · simp only [merkle_proof, hc]
  · exact proofLoop_spec hash (L.map hash) i (by simpa using hi)

/-- Witness for C3 at five leaves and index 4 (the self-paired path). -/
theorem merkle_proof_sibling_rule_witness :
    ∃ p, merkle_proof demoHash ["a", "b", "c", "d", "e"] 4 = some p ∧
      p.hashes = specSiblingList demoHash (["a", "b", "c", "d", "e"].map demoHash) 4 :=
  merkle_proof_sibling_rule demoHash ["a", "b", "c", "d", "e"] 4 (by decide)

/-- C4: `verify_proof` is a total boolean function of its inputs — the
embedding accepts every proof value, whatever its sibling list, index,
leaf count or content, and never needs an error case — and whenever the
recomputed chain differs from the root it returns `false` rather than
failing; in particular a proof whose sibling count is inconsistent with
its stated leaf count simply verifies to `false`. -/
theorem verify_proof_false_on_mismatch (hash : String → String) (root : String)
    (p : MerkleProof String)
    (h : verifyLoop hash p.hashes (hash p.leaf_content) p.leaf_index ≠ root) :
    verify_proof hash root p = false := by
  simp only [verify_proof]
  rw [beq_eq_false_iff_ne]
  exact fun e => h e.symm

/-- Witness for C4: a proof claiming four leaves but carrying zero
siblings (an inconsistent height) resolves to `false`. -/
theorem verify_proof_false_on_mismatch_witness :
    verify_proof demoHash "deadbeef" ⟨[], 4, 0, "a"⟩ = false :=
  verify_proof_false_on_mismatch demoHash "deadbeef" ⟨[], 4, 0, "a"⟩ (by decide)

/-- C5: the proof's sibling list has length `⌈log₂ n⌉` (`Nat.clog 2 n`)
for `n` leaves — in particular `0` when `n = 1`, since
`Nat.clog 2 1 = 0`. -/
theorem merkle_proof_shape (hash : String → String) (L : List String) (i : Nat)
    (hi : i < L.length) :
    ∃ p, merkle_proof hash L i = some p ∧ p.hashes.length = Nat.clog 2 L.length := by
  obtain ⟨c, hc⟩ : ∃ c, L[i]? = some c := ⟨_, List.getElem?_eq_getElem hi⟩
  refine ⟨⟨proofLoop hash (L.map hash) i [], L.length, i, c⟩, ?_, ?_⟩
  · simp only [merkle_proof, hc]
  · have hlen := proofLoop_len hash (L.map hash) i (by simpa using hi)
    simpa using hlen

/-- Witness for C5 at five leaves (`Nat.clog 2 5 = 3` siblings). -/
theorem merkle_proof_shape_witness :
    ∃ p, merkle_proof demoHash ["a", "b", "c", "d", "e"] 2 = some p ∧
      p.hashes.length = Nat.clog 2 (["a", "b", "c", "d", "e"] : List String).length :=
  merkle_proof_shape demoHash ["a", "b", "c", "d", "e"] 2 (by decide)

/-- C6: on the empty leaf sequence neither a root digest nor a proof is
produced: `merkle_root` hits the failing `pop().unwrap()` and
`merkle_proof` the failing `leaves[leaf_index]`, both modelled as
`none`. -/
theorem empty_input_fails (hash : String → String) :
    merkle_root hash [] = none ∧ ∀ i : Nat, merkle_proof hash [] i = none := by
  constructor
  · rw [merkle_root, show (([] : List String).map hash) = [] from rfl,
      reduceToRoot_step, if_neg (by simp)]
    rfl
  · intro i
    simp [merkle_proof]

/-- C7: `merkle_proof` fails (the out-of-bounds indexing panic,
modelled as `none`) exactly when `leaf_index ≥ leaves.length`; it never
returns a proof for an out-of-range index. -/
theorem merkle_proof_out_of_range (hash : String → String) (L : List String) (i : Nat) :
    merkle_proof hash L i = none ↔ L.length ≤ i := by
  cases hc : L[i]? with
  | none =>
      simp only [merkle_proof, hc]
      simpa using List.getElem?_eq_none_iff.mp hc
  | some c =>
      have hlt : i < L.length := by
        by_contra hle
        rw [List.getElem?_eq_none (by omega)] at hc
        exact Option.noConfusion hc
      simp only [merkle_proof, hc]
      simp
      omega

/-- C8: the root of a one-leaf tree is the leaf hash itself — the
reduction loop performs zero iterations. -/
theorem single_leaf_root (hash : String → String) (x : String) :
    merkle_root hash [x] = some (hash x) := by
  rw [merkle_root]
  simp only [List.map_cons, List.map_nil]
  rw [reduceToRoot_step, if_neg (by simp)]
  rfl

/-- C9: `merkle_root` is deterministic — equal leaf sequences yield
identical root digests (it is a pure function of its input). -/
theorem merkle_root_deterministic (hash : String → String) (L1 L2 : List String)
    (h : L1 = L2) : merkle_root hash L1 = merkle_root hash L2 := by
  rw [h]

/-- Witness for C9 on a concrete pair of equal inputs. -/
theorem merkle_root_deterministic_witness :
    merkle_root demoHash ["a", "b"] = merkle_root demoHash ["a", "b"] :=
  merkle_root_deterministic demoHash ["a", "b"] ["a", "b"] rfl

/-- C10: the verification result never depends on the proof's
`num_of_leaves` field — two proofs agreeing on `hashes`, `leaf_index`
and `leaf_content` verify identically whatever their stated leaf
counts, since the field is never read. -/
theorem verify_proof_ignores_leaf_count (hash : String → String) (root : String)
    (p q : MerkleProof String) (h1 : p.hashes = q.hashes)
    (h2 : p.leaf_index = q.leaf_index) (h3 : p.leaf_content = q.leaf_content) :
    verify_proof hash root p = verify_proof hash root q := by
  simp only [verify_proof]
  rw [h1, h2, h3]

/-- Witness for C10: leaf counts 5 and 99 verify identically. -/
theorem verify_proof_ignores_leaf_count_witness :
    verify_proof demoHash "r" ⟨["s"], 5, 0, "a"⟩ =
      verify_proof demoHash "r" ⟨["s"], 99, 0, "a"⟩ :=
  verify_proof_ignores_leaf_count demoHash "r" ⟨["s"], 5, 0, "a"⟩ ⟨["s"], 99, 0, "a"⟩
    rfl rfl rfl

end MerkleTree
